import Mathlib

/-!
Verification development for `pybinding`'s Chebyshev / Kernel Polynomial Method
module (`src/pybinding/chebyshev.py`).

The Python file under `src/` is a thin wrapper: the numerical engine lives in
the compiled extension module `_cpp` (classes `_cpp.KPM` and `_cpp.KPMcuda`),
which is part of this repository but not present under `src/`.  Definitions
below therefore come in two groups:

* faithful embeddings of the Python wrapper code in `chebyshev.py`
  (`kpm`, `kpm_cuda`, `KernelPolynomialMethod.calc_greens`,
  `KernelPolynomialMethod.calc_ldos`, `KernelPolynomialMethod.deferred_ldos`,
  the deprecated call operator, default argument values, and Python `or`
  truthiness used on the `energy_range` argument);

* definitions whose doc comment starts with `Modelled from the spec:`,
  standing in for the missing C++ engine (spectral rescaling, Chebyshev
  moment recursion, optimization-level storage layouts, interleaved moment
  computation, site lookup, parallel dispatch, and a simple IEEE-style
  arithmetic with infinities and NaN used to study divergence under
  underestimated spectral bounds).
-/

/-! ## Python-layer data: `energy_range` values and Python truthiness -/

/-- Python values that a caller can pass for the `energy_range` parameter of
`kpm` / `kpm_cuda`: `None` (the default), a `(min, max)` tuple of floats, or
some other object (for the purposes of truthiness we also model the falsy
values `()`, integers, strings and booleans). Floats are embedded as `ℚ`. -/
inductive PyRange where
  | pyNone
  | pair (lo hi : ℚ)
  | emptyTuple
  | pyInt (z : ℤ)
  | pyStr (s : String)
  | pyBool (b : Bool)
deriving DecidableEq, Repr

/-- Python truthiness for `PyRange` values: `None`, `()`, `0`, `""` and
`False` are falsy; a two-element tuple is always truthy. -/
def PyRange.truthy : PyRange → Bool
  | .pyNone => false
  | .pair _ _ => true
  | .emptyTuple => false
  | .pyInt z => z != 0
  | .pyStr s => s != ""
  | .pyBool b => b

/-- Python's `a or b` for `PyRange` values: `a` if `a` is truthy, else `b`. -/
def pyOr (a b : PyRange) : PyRange :=
  if a.truthy then a else b

/-! ## Geometry collaborators (`Model` / `System` providers) -/

/-- A lattice site as used by the site locator: a Cartesian position and a
sublattice label. Modelled from the spec: the System/geometry provider
supplies positions and sublattice labels per matrix index. -/
structure Site where
  position : ℚ × ℚ × ℚ
  sublattice : String
deriving DecidableEq, Repr

/-- The tight-binding model collaborator, borrowed read-only by the engine.
Modelled from the spec: it supplies the operator dimension and the site
geometry; one site per matrix index. -/
structure Model where
  sites : List Site
deriving DecidableEq, Repr

/-- The operator dimension `N`: one matrix row/column per site. -/
def Model.dim (m : Model) : ℕ := m.sites.length

/-! ## The `_cpp` implementation objects and the Python wrapper -/

/-- The constructed `_cpp.KPM` implementation object, recorded by its
constructor arguments `(model, lambda_value, energy_range, optimization_level,
lanczos_precision)` exactly as `kpm` passes them. -/
structure CppKPM where
  model : Model
  lambda_value : ℚ
  energy_range : PyRange
  optimization_level : ℕ
  lanczos_precision : ℚ
deriving DecidableEq, Repr

/-- The constructed `_cpp.KPMcuda` implementation object, recorded by its
constructor arguments `(model, lambda_value, energy_range,
optimization_level)` exactly as `kpm_cuda` passes them. -/
structure CppKPMcuda where
  model : Model
  lambda_value : ℚ
  energy_range : PyRange
  optimization_level : ℕ
deriving DecidableEq, Repr

/-- An implementation object held by `KernelPolynomialMethod.impl`: either the
CPU engine or the CUDA engine. -/
inductive KPMImpl where
  | cpu (k : CppKPM)
  | cuda (k : CppKPMcuda)
deriving DecidableEq, Repr

/-- The model held by an implementation object. -/
def KPMImpl.model : KPMImpl → Model
  | .cpu k => k.model
  | .cuda k => k.model

/-- `KernelPolynomialMethod`: the common Python interface wrapping a specific
implementation object (`self.impl`). -/
structure KernelPolynomialMethod where
  impl : KPMImpl
deriving DecidableEq, Repr

/-- The `_cpp` extension module as seen from Python: all that `kpm_cuda`'s
`try/except AttributeError` can observe is whether the attribute `KPMcuda`
exists, i.e. whether the module was compiled with CUDA support. -/
structure CppModule where
  hasCudaSupport : Bool
deriving DecidableEq, Repr

/-- `kpm(model, lambda_value, energy_range, optimization_level,
lanczos_precision)`: builds `_cpp.KPM(model, lambda_value,
energy_range or (0, 0), optimization_level, lanczos_precision)` and wraps it
in a `KernelPolynomialMethod`. -/
def kpm (model : Model) (lambda_value : ℚ) (energy_range : PyRange)
    (optimization_level : ℕ) (lanczos_precision : ℚ) : KernelPolynomialMethod :=
  KernelPolynomialMethod.mk (KPMImpl.cpu
    { model := model
      lambda_value := lambda_value
      energy_range := pyOr energy_range (PyRange.pair 0 0)
      optimization_level := optimization_level
      lanczos_precision := lanczos_precision })

/-- Default argument values of `def kpm(model, lambda_value=4.0,
energy_range=None, optimization_level=3, lanczos_precision=0.002)`. -/
structure KpmSignature where
  lambda_value : ℚ
  energy_range : PyRange
  optimization_level : ℕ
  lanczos_precision : ℚ
deriving DecidableEq, Repr

/-- The defaults of `kpm` as written in the source: `lambda_value=4.0`,
`energy_range=None`, `optimization_level=3`, `lanczos_precision=0.002`. -/
def kpmDefaults : KpmSignature :=
  { lambda_value := 4
    energy_range := PyRange.pyNone
    optimization_level := 3
    lanczos_precision := 1 / 500 }

/-- `kpm(model)` with every optional argument left at its default. -/
def kpmWithDefaults (model : Model) : KernelPolynomialMethod :=
  kpm model kpmDefaults.lambda_value kpmDefaults.energy_range
    kpmDefaults.optimization_level kpmDefaults.lanczos_precision

/-- The message of the exception raised by `kpm_cuda` when the extension
module was compiled without CUDA: the accelerator-unsupported error of this
codebase (the spec's `UnsupportedBackend`). -/
def unsupportedBackendMsg : String :=
  "The module was compiled without CUDA support.\nUse a different KPM implementation or recompile the module with CUDA."

/-- `kpm_cuda(model, lambda_value, energy_range, optimization_level)`: tries
`_cpp.KPMcuda(model, lambda_value, energy_range or (0, 0),
optimization_level)`; if the module lacks the `KPMcuda` attribute the
`AttributeError` is caught and an exception with `unsupportedBackendMsg` is
raised instead. -/
def kpm_cuda (cpp : CppModule) (model : Model) (lambda_value : ℚ)
    (energy_range : PyRange) (optimization_level : ℕ) :
    Except String KernelPolynomialMethod :=
  if cpp.hasCudaSupport then
    Except.ok (KernelPolynomialMethod.mk (KPMImpl.cuda
      { model := model
        lambda_value := lambda_value
        energy_range := pyOr energy_range (PyRange.pair 0 0)
        optimization_level := optimization_level }))
  else
    Except.error unsupportedBackendMsg

/-- Default argument values of `def kpm_cuda(model, lambda_value=4.0,
energy_range=None, optimization_level=1)`. -/
structure KpmCudaSignature where
  lambda_value : ℚ
  energy_range : PyRange
  optimization_level : ℕ
deriving DecidableEq, Repr

/-- The defaults of `kpm_cuda` as written in the source: `lambda_value=4.0`,
`energy_range=None`, `optimization_level=1`. -/
def kpmCudaDefaults : KpmCudaSignature :=
  { lambda_value := 4
    energy_range := PyRange.pyNone
    optimization_level := 1 }

/-- `kpm_cuda(model)` with every optional argument left at its default. -/
def kpmCudaWithDefaults (cpp : CppModule) (model : Model) :
    Except String KernelPolynomialMethod :=
  kpm_cuda cpp model kpmCudaDefaults.lambda_value kpmCudaDefaults.energy_range
    kpmCudaDefaults.optimization_level

/-! ## Engine errors, site lookup, and the computation entry points -/

/-- Errors of the engine's error taxonomy that are raised as exceptions:
`InvalidIndex` (Hamiltonian index out of range) and `NoMatchingSite` (the
sublattice filter excluded every site). Modelled from the spec: the C++
engine raising them is not under `src/`. -/
inductive EngineError where
  | InvalidIndex
  | NoMatchingSite
deriving DecidableEq, Repr

/-- Squared Euclidean distance between two Cartesian positions.  Minimizing
the squared distance selects the same site as minimizing the distance. -/
def dist2 (p q : ℚ × ℚ × ℚ) : ℚ :=
  (p.1 - q.1) ^ 2 + (p.2.1 - q.2.1) ^ 2 + (p.2.2 - q.2.2) ^ 2

/-- Whether a site passes the sublattice filter: the default value `""`
considers any sublattice, otherwise the labels must match.  Modelled from the
spec and the `calc_ldos` docstring ("Only look for sites of a specific
sublattice ... The default value considers any sublattice"). -/
def matchesSub (sub : String) (s : Site) : Bool :=
  sub == "" || s.sublattice == sub

/-- Compare a candidate `(k, s)` against the best result so far, preferring
the candidate when it is at least as close. -/
def betterSite (pos : ℚ × ℚ × ℚ) (k : ℕ) (s : Site) :
    Option (ℕ × ℚ) → ℕ × ℚ
  | none => (k, dist2 pos s.position)
  | some (bi, bd) =>
    if dist2 pos s.position ≤ bd then (k, dist2 pos s.position) else (bi, bd)

/-- Best (earliest-on-ties) candidate among a list of `(index, site)` pairs,
returned together with its squared distance to `pos`. -/
def bestSite (pos : ℚ × ℚ × ℚ) : List (ℕ × Site) → Option (ℕ × ℚ)
  | [] => none
  | (k, s) :: rest => some (betterSite pos k s (bestSite pos rest))

/-- Modelled from the spec: `SiteLocator` — the matrix index of the site
nearest (by Euclidean distance) to `pos` among the sites passing the
sublattice filter, or `none` when the filter excludes every site. -/
def siteLocator (sites : List Site) (pos : ℚ × ℚ × ℚ) (sub : String) :
    Option ℕ :=
  (bestSite pos (sites.enum.filter (fun p => matchesSub sub p.2))).map
    (fun b => b.1)

/-- Modelled from the spec: the scalar numeric behaviour of the C++ engine
that the wrapper-level claims do not depend on — the reconstructed Green's
function value of element `(i, j)` at one energy, the reconstructed LDOS
value of one site at one energy (both transcendental closed forms in §4.4,
abstracted here as functions), and the number of sparse-apply work units the
moment recursion performs for a given broadening (§4.3). -/
structure EngineEval where
  gval : ℤ → ℤ → ℚ → ℚ → ℚ
  ldosval : ℕ → ℚ → ℚ → ℚ
  workUnits : ℚ → ℕ

/-- Modelled from the spec: `_cpp` `calc_greens(i, j, energy, broadening)`.
Requires `0 ≤ i, j < N`; an out-of-range index raises `InvalidIndex` at call
time, before any recursion work begins (the second component counts the
sparse-apply work units performed); for valid indices it returns the array of
Green's values, one per input energy. -/
def implCalcGreens (ev : EngineEval) (impl : KPMImpl) (i j : ℤ)
    (energy : List ℚ) (broadening : ℚ) :
    Except EngineError (List ℚ) × ℕ :=
  if 0 ≤ i ∧ i < (impl.model.dim : ℤ) ∧ 0 ≤ j ∧ j < (impl.model.dim : ℤ) then
    (Except.ok (energy.map (fun e => ev.gval i j e broadening)),
      ev.workUnits broadening)
  else
    (Except.error EngineError.InvalidIndex, 0)

/-- Modelled from the spec: `_cpp` `calc_ldos(energy, broadening, position,
sublattice)`.  The site locator translates the position and sublattice filter
into a matrix index (raising `NoMatchingSite` when the filter excludes every
site), then the engine returns one LDOS value per input energy. -/
def implCalcLdos (ev : EngineEval) (impl : KPMImpl) (energy : List ℚ)
    (broadening : ℚ) (position : ℚ × ℚ × ℚ) (sublattice : String) :
    Except EngineError (List ℚ) :=
  match siteLocator impl.model.sites position sublattice with
  | none => Except.error EngineError.NoMatchingSite
  | some idx => Except.ok (energy.map (fun e => ev.ldosval idx e broadening))

/-- The results container `results.LDOS(energy, ldos)`: a labeled pair of the
energy axis and the LDOS values. -/
structure LDOS where
  energies : List ℚ
  values : List ℚ
deriving DecidableEq, Repr

/-- `KernelPolynomialMethod.calc_greens(self, i, j, energy, broadening)`:
`return self.impl.calc_greens(i, j, energy, broadening)`. -/
def KernelPolynomialMethod.calc_greens (ev : EngineEval)
    (k : KernelPolynomialMethod) (i j : ℤ) (energy : List ℚ)
    (broadening : ℚ) : Except EngineError (List ℚ) × ℕ :=
  implCalcGreens ev k.impl i j energy broadening

/-- `KernelPolynomialMethod.__call__(self, *args, **kwargs)` (deprecated):
`return self.calc_greens(*args, **kwargs)`. -/
def KernelPolynomialMethod.callOp (ev : EngineEval)
    (k : KernelPolynomialMethod) (i j : ℤ) (energy : List ℚ)
    (broadening : ℚ) : Except EngineError (List ℚ) × ℕ :=
  KernelPolynomialMethod.calc_greens ev k i j energy broadening

/-- `KernelPolynomialMethod.calc_ldos(self, energy, broadening, position,
sublattice="")`: `ldos = self.impl.calc_ldos(energy, broadening, position,
sublattice); return results.LDOS(energy, ldos)`.  An engine exception
propagates; on success the raw value array is wrapped together with the
caller's energy array. -/
def KernelPolynomialMethod.calc_ldos (ev : EngineEval)
    (k : KernelPolynomialMethod) (energy : List ℚ) (broadening : ℚ)
    (position : ℚ × ℚ × ℚ) (sublattice : String) :
    Except EngineError LDOS :=
  (implCalcLdos ev k.impl energy broadening position sublattice).map
    (fun ldos => LDOS.mk energy ldos)

/-! ## Parallel dispatch of LDOS requests -/

/-- One LDOS request: the argument list of a `calc_ldos` / `deferred_ldos`
call. -/
structure LdosRequest where
  energy : List ℚ
  broadening : ℚ
  position : ℚ × ℚ × ℚ
  sublattice : String
deriving DecidableEq, Repr

/-- `calc_ldos` applied to the arguments of one request. -/
def calcLdosReq (ev : EngineEval) (k : KernelPolynomialMethod)
    (r : LdosRequest) : Except EngineError LDOS :=
  KernelPolynomialMethod.calc_ldos ev k r.energy r.broadening r.position
    r.sublattice

/-- Modelled from the spec: a deferred work unit
(`self.impl.deferred_ldos(...)`) runs the full LDOS pipeline for its request
independently; after completion it holds the request's result. -/
structure Deferred where
  request : LdosRequest
  result : Except EngineError LDOS
deriving Repr

/-- `KernelPolynomialMethod.deferred_ldos(self, energy, broadening, position,
sublattice="")`: `return self.impl.deferred_ldos(energy, broadening,
position, sublattice)` — the deferred unit whose eventual result is the LDOS
pipeline applied to the request. -/
def KernelPolynomialMethod.deferred_ldos (ev : EngineEval)
    (k : KernelPolynomialMethod) (r : LdosRequest) : Deferred :=
  Deferred.mk r
    ((implCalcLdos ev k.impl r.energy r.broadening r.position
      r.sublattice).map (fun ldos => LDOS.mk r.energy ldos))

/-- Modelled from the spec: the parallel dispatcher completes the deferred
units of requests `0, ..., K-1` in an arbitrary completion order and records
`(request index, result)` pairs in that order; result association is by
request identity, not arrival order. -/
def runBatch (ev : EngineEval) (k : KernelPolynomialMethod)
    (reqs : List LdosRequest) (order : List ℕ) :
    List (ℕ × Except EngineError LDOS) :=
  order.filterMap (fun t =>
    (reqs[t]?).map (fun r =>
      (t, (KernelPolynomialMethod.deferred_ldos ev k r).result)))

/-! ## A float model with infinities and NaN, for divergence under
underestimated spectral bounds -/

/-- The largest finite magnitude of the float model: the IEEE double overflow
threshold is just below `2 ^ 1024`. -/
def FMAX : ℚ := 2 ^ 1024

/-- Modelled from the spec: engine arithmetic is IEEE floating point; for the
divergence claims only its non-finite values matter, so scalars are embedded
as exact rationals extended with signed infinity and NaN. -/
inductive FVal where
  | nan
  | inf (neg : Bool)
  | fin (q : ℚ)
deriving DecidableEq, Repr

/-- Rounding a rational into the float model: magnitudes beyond `FMAX`
overflow to the correspondingly signed infinity. -/
def mkF (q : ℚ) : FVal :=
  if FMAX < q then FVal.inf false
  else if q < -FMAX then FVal.inf true
  else FVal.fin q

/-- Negation in the float model. -/
def fneg : FVal → FVal
  | FVal.nan => FVal.nan
  | FVal.inf s => FVal.inf (!s)
  | FVal.fin q => FVal.fin (-q)

/-- Addition in the float model: NaN propagates, opposite infinities give
NaN, an infinity absorbs finite values, finite sums may overflow. -/
def fadd : FVal → FVal → FVal
  | FVal.nan, _ => FVal.nan
  | FVal.inf _, FVal.nan => FVal.nan
  | FVal.inf s, FVal.inf t => if s = t then FVal.inf s else FVal.nan
  | FVal.inf s, FVal.fin _ => FVal.inf s
  | FVal.fin _, FVal.nan => FVal.nan
  | FVal.fin _, FVal.inf t => FVal.inf t
  | FVal.fin a, FVal.fin b => mkF (a + b)

/-- Multiplication in the float model: NaN propagates, `0 · ∞` is NaN, signs
of infinities combine, finite products may overflow. -/
def fmul : FVal → FVal → FVal
  | FVal.nan, _ => FVal.nan
  | FVal.inf _, FVal.nan => FVal.nan
  | FVal.inf s, FVal.inf t => if s = t then FVal.inf false else FVal.inf true
  | FVal.inf s, FVal.fin q =>
    if q = 0 then FVal.nan
    else if q < 0 then FVal.inf (!s) else FVal.inf s
  | FVal.fin _, FVal.nan => FVal.nan
  | FVal.fin q, FVal.inf t =>
    if q = 0 then FVal.nan
    else if q < 0 then FVal.inf (!t) else FVal.inf t
  | FVal.fin a, FVal.fin b => mkF (a * b)

/-- Subtraction in the float model. -/
def fsub (x y : FVal) : FVal := fadd x (fneg y)

/-- Whether a float-model value is finite (neither an infinity nor NaN). -/
def isFiniteF : FVal → Bool
  | FVal.fin _ => true
  | _ => false

/-- Consecutive pair `(T_n(x), T_{n+1}(x))` of Chebyshev recursion values in
float arithmetic, via the three-term recursion
`T_{n+2} = 2·x·T_{n+1} - T_n`. -/
def chebFAux (x : FVal) : ℕ → FVal × FVal
  | 0 => (FVal.fin 1, x)
  | m + 1 =>
    let p := chebFAux x m
    (p.2, fsub (fmul (fmul (FVal.fin 2) x) p.2) p.1)

/-- The `m`-th Chebyshev recursion value `T_m(x)` in float arithmetic.  For a
1×1 operator whose rescaled entry is `x` this is exactly the `m`-th KPM
moment. -/
def chebF (x : FVal) (m : ℕ) : FVal := (chebFAux x m).1

/-- Moment list builder: emits the current recursion value and advances the
two-vector recursion state, never trapping or inspecting the values. -/
def momentsGo (x : FVal) : ℕ → FVal → FVal → List FVal
  | 0, _, _ => []
  | M + 1, t0, t1 => t0 :: momentsGo x M t1 (fsub (fmul (fmul (FVal.fin 2) x) t1) t0)

/-- Modelled from the spec: the first `M` KPM moments of a 1×1 operator with
rescaled entry `x`, computed by the three-term recursion in float
arithmetic. -/
def momentsF (x : FVal) (M : ℕ) : List FVal := momentsGo x M (FVal.fin 1) x

/-- Chebyshev basis list builder over exact rationals (used for the basis
values at the requested energies, which stay inside `[-1, 1]`). -/
def chebQGo (e : ℚ) : ℕ → ℚ → ℚ → List ℚ
  | 0, _, _ => []
  | M + 1, t0, t1 => t0 :: chebQGo e M t1 (2 * e * t1 - t0)

/-- The list `[T_0(e), ..., T_{M-1}(e)]` over exact rationals. -/
def chebListQ (e : ℚ) (M : ℕ) : List ℚ := chebQGo e M 1 e

/-- Kernel-damped series reconstruction in float arithmetic: the sum of
`coefficient · moment` over the moment list, folded left like the engine's
accumulation loop. -/
def reconstructF (coef : List ℚ) (moments : List FVal) : FVal :=
  (List.zipWith (fun c mu => fmul (FVal.fin c) mu) coef moments).foldl fadd
    (FVal.fin 0)

/-- The rescaling factor `a = (E_max - E_min) / (2 - ε)` from the spec's data
model. -/
def scaleA (emin emax eps : ℚ) : ℚ := (emax - emin) / (2 - eps)

/-- The rescaling shift `b = (E_max + E_min) / 2` from the spec's data
model. -/
def scaleB (emin emax : ℚ) : ℚ := (emax + emin) / 2

/-- The rescaled operator entry `(h - b) / a` for a 1×1 operator `[h]`. -/
def rescaled (h emin emax eps : ℚ) : ℚ :=
  (h - scaleB emin emax) / scaleA emin emax eps

/-- Modelled from the spec: the full KPM LDOS pipeline for a 1×1 Hamiltonian
`[h]` with caller-supplied energy bounds `(emin, emax)`, in float arithmetic:
rescale the operator, run the moment recursion, damp the moments with the
kernel coefficients (a fixed sequence derived from `M`, kept as the parameter
`kernel`), and reconstruct one value per requested energy.  The return type
is a plain array of values: there is no exception path. -/
def kpmLdos1x1 (kernel : ℕ → ℚ) (h emin emax eps : ℚ) (M : ℕ)
    (energies : List ℚ) : List FVal :=
  energies.map (fun e =>
    reconstructF
      (List.zipWith (fun c t => c * t) ((List.range M).map kernel)
        (chebListQ e M))
      (momentsF (mkF (rescaled h emin emax eps)) M))

/-- The requested energies of a concrete divergence scenario: the 1×1
Hamiltonian `[2^600]` has true spectrum `{2^600}`, but the caller supplies
the underestimated energy bounds `(-1, 1)`, so the rescaled entry is
`2^600`, far outside `[-1, 1]`. -/
def c2Energies : List ℚ := [0, 1 / 2]

/-- The moment count of the concrete divergence scenario. -/
def c2M : ℕ := 8

/-- The LDOS result array of the concrete divergence scenario (flat kernel
coefficients). -/
def c2Result : List FVal :=
  kpmLdos1x1 (fun _ => 1) (2 ^ 600) (-1) 1 0 c2M c2Energies

/-- The exact-rational Chebyshev recursion values `T_m(q)`, for comparison
with the float recursion before overflow. -/
def chebTAux (q : ℚ) : ℕ → ℚ × ℚ
  | 0 => (1, q)
  | m + 1 =>
    let p := chebTAux q m
    (p.2, 2 * q * p.2 - p.1)

/-- The exact-rational Chebyshev value `T_m(q)`. -/
def chebT (q : ℚ) (m : ℕ) : ℚ := (chebTAux q m).1

/-! ## Optimization levels 0–3: storage layouts and moment recursion -/

open Matrix

variable {n : ℕ}

/-- The Chebyshev recursion vectors `|0>, |1>, |2>, ...` over `ℚ` for an
abstract sparse-apply operation `app`: `|0> = v`, `|1> = app |0>`,
`|k+2> = 2·app |k+1> - |k>` (spec §4.3). -/
def chebVecWith (app : (Fin n → ℚ) → Fin n → ℚ) (v : Fin n → ℚ) :
    ℕ → Fin n → ℚ
  | 0 => v
  | 1 => app v
  | k + 2 => (2 : ℚ) • app (chebVecWith app v (k + 1)) - chebVecWith app v k

/-- The `t`-th KPM moment `μ_t = <w | t>` for starting vector `v` and readout
vector `w` (`w = e_i`, `v = e_j` for a Green's element; `w = v` for LDOS). -/
def momentWith (app : (Fin n → ℚ) → Fin n → ℚ) (w v : Fin n → ℚ) (t : ℕ) : ℚ :=
  w ⬝ᵥ chebVecWith app v t

/-- The naive (level 0/1) moment sequence `[μ_0, ..., μ_{M-1}]`. -/
def momentsWith (app : (Fin n → ℚ) → Fin n → ℚ) (w v : Fin n → ℚ) (M : ℕ) :
    List ℚ :=
  (List.range M).map (momentWith app w v)

/-- Modelled from the spec and the `kpm` docstring: moment interleaving
(levels 2 and 3) — two moments per iteration via the even/odd recursion
identities `μ_{2r} = 2·<w_r|v_r> - μ_0` and `μ_{2r+1} = 2·<w_{r+1}|v_r> -
μ_1`, where `w_r`, `v_r` are the Chebyshev recursion vectors started from `w`
and `v`. -/
def momentsInterleavedWith (app : (Fin n → ℚ) → Fin n → ℚ)
    (w v : Fin n → ℚ) : ℕ → List ℚ
  | 0 => []
  | M + 1 =>
    momentsInterleavedWith app w v M ++
      [2 * (chebVecWith app w M ⬝ᵥ chebVecWith app v M) - momentWith app w v 0,
       2 * (chebVecWith app w (M + 1) ⬝ᵥ chebVecWith app v M) -
         momentWith app w v 1]

/-- Sparse row data: a list of `(column, value)` entries. -/
def rowApply (row : List (Fin n × ℚ)) (v : Fin n → ℚ) : ℚ :=
  (row.map (fun p => p.2 * v p.1)).sum

/-- Sparse matrix-vector multiplication from per-row `(column, value)`
entries. -/
def sparseApply (rows : Fin n → List (Fin n × ℚ)) (v : Fin n → ℚ) :
    Fin n → ℚ :=
  fun i => rowApply (rows i) v

/-- The compressed sparse row data of a matrix: each row keeps its nonzero
`(column, value)` entries. -/
def csrRow (A : Matrix (Fin n) (Fin n) ℚ) (i : Fin n) : List (Fin n × ℚ) :=
  ((List.finRange n).filter (fun j => decide (A i j ≠ 0))).map
    (fun j => (j, A i j))

/-- The ELLPACK row data of a matrix: the nonzero entries padded to the fixed
width `W` with explicit zero entries (spec: level 3 converts CSR to an
ELLPACK-like fixed-stride layout). -/
def ellRow (A : Matrix (Fin n) (Fin n) ℚ) (W : ℕ) (i : Fin n) :
    List (Fin n × ℚ) :=
  csrRow A i ++ List.replicate (W - (csrRow A i).length) (i, (0 : ℚ))

/-- Modelled from the spec and the `kpm` docstring's description of
`optimization_level`: the `2·M` moments of one Green's-element/LDOS request
computed at a given optimization level.  Level 0: plain CSR, naive
recursion.  Level 1: matrix reordering by the permutation `σ`.  Level 2:
reordering plus moment interleaving.  Level 3 (and any higher requested
level): reordering, interleaving, and the ELLPACK layout of width `W`. -/
def kpmMoments (A : Matrix (Fin n) (Fin n) ℚ) (σ : Equiv.Perm (Fin n))
    (W : ℕ) (w v : Fin n → ℚ) (level M : ℕ) : List ℚ :=
  match level with
  | 0 => momentsWith (sparseApply (csrRow A)) w v (2 * M)
  | 1 =>
    momentsWith (sparseApply (csrRow (A.submatrix σ σ))) (w ∘ σ) (v ∘ σ)
      (2 * M)
  | 2 =>
    momentsInterleavedWith (sparseApply (csrRow (A.submatrix σ σ))) (w ∘ σ)
      (v ∘ σ) M
  | _ + 3 =>
    momentsInterleavedWith (sparseApply (ellRow (A.submatrix σ σ) W)) (w ∘ σ)
      (v ∘ σ) M

/-- The reconstructed result of one request: one kernel-damped moment sum per
requested energy, with `coef t e` the (kernel × Chebyshev basis) coefficient
of moment `t` at energy `e`.  Only the moment computation depends on the
optimization level. -/
def kpmResult (A : Matrix (Fin n) (Fin n) ℚ) (σ : Equiv.Perm (Fin n))
    (W : ℕ) (w v : Fin n → ℚ) (level M : ℕ) (coef : ℕ → ℚ → ℚ)
    (energies : List ℚ) : List ℚ :=
  energies.map (fun e =>
    (List.zipWith (fun t mu => coef t e * mu) (List.range (2 * M))
      (kpmMoments A σ W w v level M)).sum)

/-! ## Concrete instances used by witness checks -/

/-- A trivial engine evaluator (all reconstructed values `0`, no work
units). -/
def evalZero : EngineEval :=
  { gval := fun _ _ _ _ => 0
    ldosval := fun _ _ _ => 0
    workUnits := fun _ => 0 }

/-- A one-site model: a single site at the origin on sublattice `"A"`. -/
def modelA : Model :=
  Model.mk [Site.mk (0, 0, 0) "A"]

/-- The engine wrapper around the CPU implementation built on `modelA`. -/
def kpmA : KernelPolynomialMethod :=
  kpm modelA 4 PyRange.pyNone 3 (1 / 500)

/-- Two concrete LDOS requests at distinct positions. -/
def reqsAB : List LdosRequest :=
  [LdosRequest.mk [1, 2] (1 / 10) (0, 0, 0) "",
   LdosRequest.mk [3] (1 / 10) (1, 0, 0) ""]

/-! ## Theorems -/

/-- C10: for every argument list, calling a `KernelPolynomialMethod` object
via its deprecated call operator returns exactly the result of `calc_greens`
applied to the same arguments. -/
theorem callOp_eq_calc_greens :
    ∀ (ev : EngineEval) (k : KernelPolynomialMethod) (i j : ℤ)
      (energy : List ℚ) (broadening : ℚ),
      KernelPolynomialMethod.callOp ev k i j energy broadening =
        KernelPolynomialMethod.calc_greens ev k i j energy broadening :=
  fun _ _ _ _ _ _ => rfl

/-- C9: `kpm` forwards the sentinel bounds `(0, 0)` to the implementation
whenever `energy_range` is `None` or any other falsy value, so `kpm(model)`
and `kpm(model, energy_range=None)` construct the engine with identical
arguments, and passing the literal tuple `(0, 0)` is indistinguishable from
requesting automatic estimation. -/
theorem kpm_sentinel_bounds :
    (∀ (v : PyRange), v.truthy = false →
      ∀ (model : Model) (lv : ℚ) (ol : ℕ) (lp : ℚ),
        kpm model lv v ol lp = kpm model lv PyRange.pyNone ol lp ∧
        (kpm model lv v ol lp).impl =
          KPMImpl.cpu ⟨model, lv, PyRange.pair 0 0, ol, lp⟩) ∧
    (∀ (model : Model) (lv : ℚ) (ol : ℕ) (lp : ℚ),
      kpm model lv (PyRange.pair 0 0) ol lp =
        kpm model lv PyRange.pyNone ol lp) := by
  constructor
  · intro v hv model lv ol lp
    constructor
    · unfold kpm pyOr
      rw [hv]
      rfl
    · unfold kpm pyOr
      rw [hv]
      rfl
  · intro model lv ol lp
    rfl

/-- Closed-form check of C9 on the falsy value `()`. -/
theorem kpm_sentinel_bounds_witness :
    PyRange.emptyTuple.truthy = false ∧
    kpm (Model.mk []) 4 PyRange.emptyTuple 3 (1 / 500) =
      kpm (Model.mk []) 4 PyRange.pyNone 3 (1 / 500) :=
  ⟨rfl,
    (kpm_sentinel_bounds.1 PyRange.emptyTuple rfl (Model.mk []) 4 3
      (1 / 500)).1⟩

/-- C7: the CPU entry point defaults are `lambda_value=4.0`,
`energy_range=None` (forwarded as the automatic-estimation sentinel `(0,0)`),
`optimization_level=3`, `lanczos_precision=0.002`; the GPU entry point
defaults are `lambda_value=4.0`, `energy_range=None`,
`optimization_level=1`. -/
theorem kpm_default_arguments :
    ∀ (model : Model) (cpp : CppModule),
      kpmDefaults.lambda_value = 4 ∧
      kpmDefaults.energy_range = PyRange.pyNone ∧
      kpmDefaults.optimization_level = 3 ∧
      kpmDefaults.lanczos_precision = 1 / 500 ∧
      kpmCudaDefaults.lambda_value = 4 ∧
      kpmCudaDefaults.energy_range = PyRange.pyNone ∧
      kpmCudaDefaults.optimization_level = 1 ∧
      (kpmWithDefaults model).impl =
        KPMImpl.cpu ⟨model, 4, PyRange.pair 0 0, 3, 1 / 500⟩ ∧
      (cpp.hasCudaSupport = true →
        kpmCudaWithDefaults cpp model =
          Except.ok
            (KernelPolynomialMethod.mk
              (KPMImpl.cuda ⟨model, 4, PyRange.pair 0 0, 1⟩))) := by
  intro model cpp
  refine ⟨rfl, rfl, rfl, rfl, rfl, rfl, rfl, rfl, ?_⟩
  intro h
  unfold kpmCudaWithDefaults kpm_cuda
  rw [h]
  rfl

/-- Closed-form check of C7 in a CUDA-capable environment. -/
theorem kpm_default_arguments_witness :
    (CppModule.mk true).hasCudaSupport = true ∧
    kpmCudaWithDefaults (CppModule.mk true) (Model.mk []) =
      Except.ok
        (KernelPolynomialMethod.mk
          (KPMImpl.cuda ⟨Model.mk [], 4, PyRange.pair 0 0, 1⟩)) :=
  ⟨rfl,
    (kpm_default_arguments (Model.mk []) (CppModule.mk true)).2.2.2.2.2.2.2.2
      rfl⟩

/-- C3: constructing the GPU engine in an environment without accelerator
support fails with the unsupported-backend error and never yields an engine
object (no silent fallback, no partial engine state). -/
theorem kpm_cuda_unsupported :
    ∀ (cpp : CppModule) (model : Model) (lv : ℚ) (er : PyRange) (ol : ℕ),
      cpp.hasCudaSupport = false →
      kpm_cuda cpp model lv er ol = Except.error unsupportedBackendMsg ∧
      ∀ (e : KernelPolynomialMethod),
        kpm_cuda cpp model lv er ol ≠ Except.ok e := by
  intro cpp model lv er ol h
  unfold kpm_cuda
  rw [h]
  simp

/-- Closed-form check of C3 in an environment without CUDA support. -/
theorem kpm_cuda_unsupported_witness :
    (CppModule.mk false).hasCudaSupport = false ∧
    kpm_cuda (CppModule.mk false) (Model.mk []) 4 PyRange.pyNone 1 =
      Except.error unsupportedBackendMsg :=
  ⟨rfl, (kpm_cuda_unsupported (CppModule.mk false) (Model.mk []) 4
    PyRange.pyNone 1 rfl).1⟩

/-- C5: for every energy array, `calc_ldos` returns a labeled
`(energies, values)` pair whose energy axis is exactly the caller's input
array and whose value array has the same length as the energy array. -/
theorem calc_ldos_labeled_pair :
    ∀ (ev : EngineEval) (k : KernelPolynomialMethod) (energy : List ℚ)
      (broadening : ℚ) (position : ℚ × ℚ × ℚ) (sublattice : String)
      (r : LDOS),
      KernelPolynomialMethod.calc_ldos ev k energy broadening position
          sublattice = Except.ok r →
      r.energies = energy ∧ r.values.length = energy.length := by
  intro ev k energy br pos sub r h
  unfold KernelPolynomialMethod.calc_ldos implCalcLdos at h
  cases hS : siteLocator k.impl.model.sites pos sub with
  | none =>
    rw [hS] at h
    simp [Except.map] at h
  | some idx =>
    rw [hS] at h
    simp only [Except.map] at h
    cases h
    exact ⟨rfl, List.length_map _ _⟩

/-- Closed-form check of C5 on a one-site model. -/
theorem calc_ldos_labeled_pair_witness :
    KernelPolynomialMethod.calc_ldos evalZero kpmA [1, 2] (1 / 10) (0, 0, 0)
        "" = Except.ok (LDOS.mk [1, 2] [0, 0]) ∧
    (LDOS.mk [1, 2] [0, 0]).energies = [1, 2] ∧
    (LDOS.mk [1, 2] [0, 0]).values.length = ([1, 2] : List ℚ).length := by
  have h : KernelPolynomialMethod.calc_ldos evalZero kpmA [1, 2] (1 / 10)
      (0, 0, 0) "" = Except.ok (LDOS.mk [1, 2] [0, 0]) := rfl
  exact ⟨h, calc_ldos_labeled_pair evalZero kpmA [1, 2] (1 / 10) (0, 0, 0) ""
    (LDOS.mk [1, 2] [0, 0]) h⟩

/-- C6: `calc_greens` requires `0 ≤ i, j < N`; an out-of-range index raises
`InvalidIndex` immediately at call time with zero recursion work performed,
and for valid indices it returns an array of the same size as the input
energy array. -/
theorem calc_greens_index_contract :
    ∀ (ev : EngineEval) (k : KernelPolynomialMethod) (i j : ℤ)
      (energy : List ℚ) (broadening : ℚ),
      (¬(0 ≤ i ∧ i < (k.impl.model.dim : ℤ) ∧ 0 ≤ j ∧
          j < (k.impl.model.dim : ℤ)) →
        KernelPolynomialMethod.calc_greens ev k i j energy broadening =
          (Except.error EngineError.InvalidIndex, 0)) ∧
      ((0 ≤ i ∧ i < (k.impl.model.dim : ℤ) ∧ 0 ≤ j ∧
          j < (k.impl.model.dim : ℤ)) →
        ∃ arr : List ℚ,
          KernelPolynomialMethod.calc_greens ev k i j energy broadening =
            (Except.ok arr, ev.workUnits broadening) ∧
          arr.length = energy.length) := by
  intro ev k i j energy br
  constructor
  · intro h
    unfold KernelPolynomialMethod.calc_greens implCalcGreens
    rw [if_neg h]
  · intro h
    refine ⟨energy.map (fun e => ev.gval i j e br), ?_, List.length_map _ _⟩
    unfold KernelPolynomialMethod.calc_greens implCalcGreens
    rw [if_pos h]

/-- Closed-form check of C6 on a one-site model: the invalid index `(1, 0)`
errors with zero work, the valid index `(0, 0)` yields one value per
energy. -/
theorem calc_greens_index_contract_witness :
    KernelPolynomialMethod.calc_greens evalZero kpmA 1 0 [5] (1 / 10) =
      (Except.error EngineError.InvalidIndex, 0) ∧
    ∃ arr : List ℚ,
      KernelPolynomialMethod.calc_greens evalZero kpmA 0 0 [5] (1 / 10) =
        (Except.ok arr, evalZero.workUnits (1 / 10)) ∧
      arr.length = ([5] : List ℚ).length := by
  constructor
  · exact (calc_greens_index_contract evalZero kpmA 1 0 [5] (1 / 10)).1
      (by decide)
  · exact (calc_greens_index_contract evalZero kpmA 0 0 [5] (1 / 10)).2
      (by decide)

/-- A `bestSite` result is one of the candidates, carrying its distance. -/
theorem bestSite_mem (pos : ℚ × ℚ × ℚ) :
    ∀ (l : List (ℕ × Site)) (i : ℕ) (d : ℚ),
      bestSite pos l = some (i, d) →
      ∃ s : Site, (i, s) ∈ l ∧ d = dist2 pos s.position := by
  intro l
  induction l with
  | nil =>
    intro i d h
    simp [bestSite] at h
  | cons a rest ih =>
    intro i d h
    cases a with
    | mk k s =>
      rw [bestSite] at h
      cases hrest : bestSite pos rest with
      | none =>
        rw [hrest] at h
        rw [betterSite] at h
        cases h
        exact ⟨s, List.mem_cons_self _ _, rfl⟩
      | some b =>
        cases b with
        | mk bi bd =>
          rw [hrest] at h
          rw [betterSite] at h
          by_cases hle : dist2 pos s.position ≤ bd
          · rw [if_pos hle] at h
            cases h
            exact ⟨s, List.mem_cons_self _ _, rfl⟩
          · rw [if_neg hle] at h
            cases h
            obtain ⟨t, ht, hd⟩ := ih i d hrest
            exact ⟨t, List.mem_cons_of_mem _ ht, hd⟩

/-- A `bestSite` result's distance is minimal among all candidates. -/
theorem bestSite_min (pos : ℚ × ℚ × ℚ) :
    ∀ (l : List (ℕ × Site)) (i : ℕ) (d : ℚ),
      bestSite pos l = some (i, d) →
      ∀ p ∈ l, d ≤ dist2 pos p.2.position := by
  intro l
  induction l with
  | nil =>
    intro i d h
    simp [bestSite] at h
  | cons a rest ih =>
    intro i d h p hp
    cases a with
    | mk k s =>
      rw [bestSite] at h
      cases hrest : bestSite pos rest with
      | none =>
        rw [hrest] at h
        rw [betterSite] at h
        cases h
        rcases List.mem_cons.1 hp with hhead | htail
        · rw [hhead]
        · cases rest with
          | nil => cases htail
          | cons b l2 =>
            rw [bestSite] at hrest
            cases hrest
      | some b =>
        cases b with
        | mk bi bd =>
          rw [hrest] at h
          rw [betterSite] at h
          by_cases hle : dist2 pos s.position ≤ bd
          · rw [if_pos hle] at h
            cases h
            rcases List.mem_cons.1 hp with hhead | htail
            · rw [hhead]
            · exact le_trans hle (ih bi bd hrest p htail)
          · rw [if_neg hle] at h
            cases h
            rcases List.mem_cons.1 hp with hhead | htail
            · rw [hhead]
              exact le_of_lt (lt_of_not_le hle)
            · exact ih i d hrest p htail

/-- An element of an enumerated list is an element of the list. -/
theorem mem_of_mem_enumFrom {α : Type} :
    ∀ (l : List α) (n : ℕ) (p : ℕ × α), p ∈ List.enumFrom n l → p.2 ∈ l := by
  intro l
  induction l with
  | nil =>
    intro n p hp
    cases hp
  | cons a rest ih =>
    intro n p hp
    rcases List.mem_cons.1 hp with hhead | htail
    · rw [hhead]
      exact List.mem_cons_self _ _
    · exact List.mem_cons_of_mem _ (ih (n + 1) p htail)

/-- C8: the default sublattice filter considers sites of any sublattice; the
located site is a genuine site that passes the filter and is nearest (by
Euclidean distance, equivalently squared distance) among all sites passing
the filter; and when the filter excludes every site the LDOS computation
raises `NoMatchingSite`. -/
theorem siteLocator_contract :
    (∀ s : Site, matchesSub "" s = true) ∧
    (∀ (sites : List Site) (pos : ℚ × ℚ × ℚ) (sub : String) (i : ℕ),
      siteLocator sites pos sub = some i →
      ∃ s : Site, (i, s) ∈ sites.enum ∧ matchesSub sub s = true ∧
        ∀ p ∈ sites.enum, matchesSub sub p.2 = true →
          dist2 pos s.position ≤ dist2 pos p.2.position) ∧
    (∀ (ev : EngineEval) (impl : KPMImpl) (energy : List ℚ) (broadening : ℚ)
      (pos : ℚ × ℚ × ℚ) (sub : String),
      (∀ s ∈ impl.model.sites, matchesSub sub s = false) →
      implCalcLdos ev impl energy broadening pos sub =
        Except.error EngineError.NoMatchingSite) := by
  refine ⟨fun s => rfl, ?_, ?_⟩
  · intro sites pos sub i h
    unfold siteLocator at h
    cases hB : bestSite pos (sites.enum.filter (fun p => matchesSub sub p.2))
      with
    | none =>
      rw [hB] at h
      cases h
    | some b =>
      cases b with
      | mk bi bd =>
        rw [hB] at h
        simp only [Option.map_some'] at h
        cases h
        obtain ⟨s, hmem, hd⟩ := bestSite_mem pos _ i bd hB
        have hms := List.of_mem_filter hmem
        refine ⟨s, List.mem_of_mem_filter hmem, hms, ?_⟩
        intro p hp hmatch
        have hpf : p ∈ sites.enum.filter (fun q => matchesSub sub q.2) :=
          List.mem_filter.2 ⟨hp, hmatch⟩
        have := bestSite_min pos _ i bd hB p hpf
        rw [← hd]
        exact this
  · intro ev impl energy br pos sub h
    have hfilter :
        impl.model.sites.enum.filter (fun p => matchesSub sub p.2) = [] := by
      rw [List.filter_eq_nil_iff]
      intro p hp
      have := h p.2 (mem_of_mem_enumFrom _ 0 p hp)
      simp [this]
    unfold implCalcLdos siteLocator
    rw [hfilter]
    rfl

/-- Closed-form check of C8 on a one-site model: the default filter accepts
the site, the locator selects it, and the filter `"B"`, which matches no
site, makes the LDOS computation fail with `NoMatchingSite`. -/
theorem siteLocator_contract_witness :
    matchesSub "" (Site.mk (0, 0, 0) "A") = true ∧
    siteLocator modelA.sites (0, 0, 0) "" = some 0 ∧
    (∃ s : Site, (0, s) ∈ modelA.sites.enum ∧ matchesSub "" s = true ∧
      ∀ p ∈ modelA.sites.enum, matchesSub "" p.2 = true →
        dist2 (0, 0, 0) s.position ≤ dist2 (0, 0, 0) p.2.position) ∧
    implCalcLdos evalZero (KPMImpl.cpu
        ⟨modelA, 4, PyRange.pair 0 0, 3, 1 / 500⟩) [1] (1 / 10) (0, 0, 0)
        "B" = Except.error EngineError.NoMatchingSite := by
  have hloc : siteLocator modelA.sites (0, 0, 0) "" = some 0 := rfl
  refine ⟨siteLocator_contract.1 (Site.mk (0, 0, 0) "A"), hloc,
    siteLocator_contract.2.1 modelA.sites (0, 0, 0) "" 0 hloc, ?_⟩
  refine siteLocator_contract.2.2 evalZero _ [1] (1 / 10) (0, 0, 0) "B" ?_
  intro s hs
  rcases List.mem_singleton.1 hs with rfl
  rfl

/-- The result a completed batch associates with request index `t` is the
deferred result of request `t`, for any completion order containing `t`. -/
theorem runBatch_lookup (ev : EngineEval) (k : KernelPolynomialMethod)
    (reqs : List LdosRequest) :
    ∀ (order : List ℕ) (t : ℕ) (r : LdosRequest), t ∈ order →
      reqs[t]? = some r →
      (runBatch ev k reqs order).lookup t =
        some (KernelPolynomialMethod.deferred_ldos ev k r).result := by
  intro order
  induction order with
  | nil =>
    intro t r ht hr
    cases ht
  | cons a rest ih =>
    intro t r ht hr
    by_cases hat : a = t
    · subst hat
      unfold runBatch
      rw [List.filterMap_cons, hr]
      simp only [Option.map_some']
      unfold List.lookup
      rw [beq_self_eq_true]
    · have ht' : t ∈ rest := by
        rcases List.mem_cons.1 ht with h1 | h2
        · exact absurd h1.symm hat
        · exact h2
      unfold runBatch
      rw [List.filterMap_cons]
      cases ha : reqs[a]? with
      | none => exact ih t r ht' hr
      | some ra =>
        simp only [Option.map_some']
        unfold List.lookup
        have hbeq : (t == a) = false := beq_eq_false_iff_ne.2 (Ne.symm hat)
        rw [hbeq]
        exact ih t r ht' hr

/-- C4: for every list of independent LDOS requests, completing their
deferred units in any order and associating results by request identity
yields exactly the results of calling `calc_ldos` on the requests
sequentially. -/
theorem deferred_ldos_matches_sequential :
    ∀ (ev : EngineEval) (k : KernelPolynomialMethod)
      (reqs : List LdosRequest) (order : List ℕ),
      order.Perm (List.range reqs.length) →
      ∀ t, t < reqs.length →
        (runBatch ev k reqs order).lookup t =
          (reqs.map (calcLdosReq ev k))[t]? := by
  intro ev k reqs order hperm t ht
  have htmem : t ∈ order := hperm.mem_iff.2 (List.mem_range.2 ht)
  have hr : reqs[t]? = some reqs[t] := List.getElem?_eq_getElem ht
  rw [runBatch_lookup ev k reqs order t reqs[t] htmem hr]
  rw [List.getElem?_map, hr]
  rfl

/-- Closed-form check of C4 on two concrete requests completed in reversed
order. -/
theorem deferred_ldos_matches_sequential_witness :
    ([1, 0].Perm (List.range reqsAB.length) ∧ 0 < reqsAB.length ∧
      1 < reqsAB.length) ∧
    (runBatch evalZero kpmA reqsAB [1, 0]).lookup 0 =
      (reqsAB.map (calcLdosReq evalZero kpmA))[0]? ∧
    (runBatch evalZero kpmA reqsAB [1, 0]).lookup 1 =
      (reqsAB.map (calcLdosReq evalZero kpmA))[1]? := by
  have hperm : [1, 0].Perm (List.range reqsAB.length) := by
    have : List.range reqsAB.length = [0, 1] := rfl
    rw [this]
    exact List.Perm.swap 0 1 []
  exact ⟨⟨hperm, by decide, by decide⟩,
    deferred_ldos_matches_sequential evalZero kpmA reqsAB [1, 0] hperm 0
      (by decide),
    deferred_ldos_matches_sequential evalZero kpmA reqsAB [1, 0] hperm 1
      (by decide)⟩

/-- The float model's overflow threshold is positive. -/
theorem FMAX_pos : 0 < FMAX := by
  unfold FMAX
  positivity

/-- The Chebyshev float recursion unfolds via the three-term recursion. -/
theorem chebF_succ_succ (x : FVal) (m : ℕ) :
    chebF x (m + 2) =
      fsub (fmul (fmul (FVal.fin 2) x) (chebF x (m + 1))) (chebF x m) := rfl

/-- The exact Chebyshev recursion unfolds via the three-term recursion. -/
theorem chebT_succ_succ (q : ℚ) (m : ℕ) :
    chebT q (m + 2) = 2 * q * chebT q (m + 1) - chebT q m := rfl

/-- Multiplying anything by a non-finite value is non-finite. -/
theorem fmul_right_nonfin (z y : FVal) (h : isFiniteF y = false) :
    isFiniteF (fmul z y) = false := by
  cases y with
  | nan => cases z <;> rfl
  | inf t =>
    cases z with
    | nan => rfl
    | inf s =>
      show isFiniteF (if s = t then FVal.inf false else FVal.inf true) = false
      split <;> rfl
    | fin q =>
      show isFiniteF (if q = 0 then FVal.nan
        else if q < 0 then FVal.inf (!t) else FVal.inf t) = false
      split
      · rfl
      · split <;> rfl
  | fin _ => simp [isFiniteF] at h

/-- Subtracting anything from a non-finite value is non-finite. -/
theorem fsub_left_nonfin (a b : FVal) (h : isFiniteF a = false) :
    isFiniteF (fsub a b) = false := by
  cases a with
  | nan => rfl
  | inf s =>
    cases b with
    | nan => rfl
    | inf t =>
      show isFiniteF (if s = !t then FVal.inf s else FVal.nan) = false
      split <;> rfl
    | fin _ => rfl
  | fin _ => simp [isFiniteF] at h

/-- Once the Chebyshev float recursion turns non-finite it stays non-finite
at the next step: the divergence is carried, never trapped. -/
theorem chebF_step_nonfin (x : FVal) (m : ℕ)
    (h : isFiniteF (chebF x m) = false) :
    isFiniteF (chebF x (m + 1)) = false := by
  cases m with
  | zero => simp [chebF, chebFAux, isFiniteF] at h
  | succ m' =>
    rw [chebF_succ_succ]
    exact fsub_left_nonfin _ _ (fmul_right_nonfin _ _ h)

/-- Non-finiteness of the Chebyshev float recursion propagates to every later
index. -/
theorem chebF_nonfin_mono (x : FVal) (m m' : ℕ) (hmm : m ≤ m')
    (h : isFiniteF (chebF x m) = false) :
    isFiniteF (chebF x m') = false := by
  induction m' with
  | zero =>
    cases Nat.le_zero.1 hmm
    exact h
  | succ k ih =>
    rcases Nat.le_succ_iff.1 hmm with hk | heq
    · exact chebF_step_nonfin x k (ih hk)
    · rw [heq] at h
      exact h

/-- For `q ≥ 1` the exact Chebyshev values are nonnegative, monotone, and
grow at least geometrically: `q^m ≤ T_m(q)`. -/
theorem chebT_growth (q : ℚ) (hq : 1 ≤ q) :
    ∀ m : ℕ, 0 ≤ chebT q m ∧ chebT q m ≤ chebT q (m + 1) ∧
      q ^ m ≤ chebT q m ∧ q ^ (m + 1) ≤ chebT q (m + 1) := by
  intro m
  induction m with
  | zero =>
    have h0 : chebT q 0 = 1 := rfl
    have h1 : chebT q 1 = q := rfl
    rw [h0, h1]
    refine ⟨by norm_num, hq, by norm_num, by rw [pow_one]⟩
  | succ k ih =>
    obtain ⟨h0, hmono, hpk, hpk1⟩ := ih
    have h0' : 0 ≤ chebT q (k + 1) := le_trans h0 hmono
    have hrec : chebT q (k + 2) = 2 * q * chebT q (k + 1) - chebT q k :=
      chebT_succ_succ q k
    have hmono' : chebT q (k + 1) ≤ chebT q (k + 2) := by
      rw [hrec]
      nlinarith [mul_nonneg (sub_nonneg.2 hq) h0']
    refine ⟨h0', hmono', hpk1, ?_⟩
    rw [hrec]
    have hq0 : 0 ≤ q := le_trans zero_le_one hq
    have hmul : q * q ^ (k + 1) ≤ q * chebT q (k + 1) :=
      mul_le_mul_of_nonneg_left hpk1 hq0
    have hpow : q ^ (k + 2) = q * q ^ (k + 1) := by ring
    nlinarith [mul_nonneg (sub_nonneg.2 hq) h0']

/-- A finite float subtraction result is within the overflow threshold. -/
theorem fsub_fin_bound (a b : FVal) (c : ℚ) (h : fsub a b = FVal.fin c) :
    -FMAX ≤ c ∧ c ≤ FMAX := by
  cases a with
  | nan => simp [fsub, fadd] at h
  | inf s =>
    cases b with
    | nan => simp [fsub, fadd, fneg] at h
    | inf t =>
      have : fsub (FVal.inf s) (FVal.inf t) =
          if s = !t then FVal.inf s else FVal.nan := rfl
      rw [this] at h
      split at h <;> cases h
    | fin p => simp [fsub, fadd, fneg] at h
  | fin p =>
    cases b with
    | nan => simp [fsub, fadd, fneg] at h
    | inf t => simp [fsub, fadd, fneg] at h
    | fin r =>
      have : fsub (FVal.fin p) (FVal.fin r) = mkF (p - r) := by
        show mkF (p + -r) = mkF (p - r)
        rw [← sub_eq_add_neg]
      rw [this] at h
      unfold mkF at h
      by_cases hA : FMAX < p - r
      · rw [if_pos hA] at h
        cases h
      · rw [if_neg hA] at h
        by_cases hB : p - r < -FMAX
        · rw [if_pos hB] at h
          cases h
        · rw [if_neg hB] at h
          cases h
          exact ⟨not_lt.1 hB, not_lt.1 hA⟩

/-- While every recursion value stays finite, the float recursion agrees with
the exact rational recursion. -/
theorem chebF_eq_chebT_of_finite (q : ℚ) (hq0 : 0 < q) (h2q : 2 * q ≤ FMAX)
    (hfin : ∀ m, isFiniteF (chebF (FVal.fin q) m) = true) :
    ∀ m, chebF (FVal.fin q) m = FVal.fin (chebT q m) := by
  have h2 : fmul (FVal.fin 2) (FVal.fin q) = FVal.fin (2 * q) := by
    show mkF (2 * q) = _
    unfold mkF
    rw [if_neg (not_lt.2 h2q), if_neg (not_lt.2 (by nlinarith [FMAX_pos]))]
  intro m
  induction m using Nat.twoStepInduction with
  | zero => rfl
  | one => rfl
  | more k ih1 ih2 =>
    have hfin2 := hfin (k + 2)
    rw [chebF_succ_succ] at hfin2 ⊢
    rw [ih1, ih2, h2] at hfin2 ⊢
    have hm : fmul (FVal.fin (2 * q)) (FVal.fin (chebT q (k + 1))) =
        mkF (2 * q * chebT q (k + 1)) := rfl
    rw [hm] at hfin2 ⊢
    unfold mkF at hfin2 ⊢
    split_ifs at hfin2 ⊢ with hA hB
    · simp [fsub, fadd, fneg, isFiniteF] at hfin2
    · simp [fsub, fadd, fneg, isFiniteF] at hfin2
    · have h3 : fsub (FVal.fin (2 * q * chebT q (k + 1)))
          (FVal.fin (chebT q k)) = mkF (2 * q * chebT q (k + 1) - chebT q k)
          := by
        show mkF (2 * q * chebT q (k + 1) + -chebT q k) =
          mkF (2 * q * chebT q (k + 1) - chebT q k)
        rw [← sub_eq_add_neg]
      rw [h3] at hfin2 ⊢
      unfold mkF at hfin2 ⊢
      split_ifs at hfin2 ⊢ with hC hD
      · simp [isFiniteF] at hfin2
      · simp [isFiniteF] at hfin2
      · exact congrArg FVal.fin (chebT_succ_succ q k).symm

/-- Under bounds that rescale the operator entry outside `[-1, 1]` (any
`q > 1` within range), some moment of the float recursion is non-finite. -/
theorem chebF_diverges (q : ℚ) (hq : 1 < q) (h2q : 2 * q ≤ FMAX) :
    ∃ m, isFiniteF (chebF (FVal.fin q) m) = false := by
  by_contra hcon
  push_neg at hcon
  have hfin : ∀ m, isFiniteF (chebF (FVal.fin q) m) = true := by
    intro m
    cases hb : isFiniteF (chebF (FVal.fin q) m) with
    | false => exact absurd hb (hcon m)
    | true => rfl
  have hq0 : 0 < q := lt_trans one_pos hq
  have hall := chebF_eq_chebT_of_finite q hq0 h2q hfin
  obtain ⟨m0, hm0⟩ := pow_unbounded_of_one_lt FMAX hq
  have hmono : q ^ m0 ≤ q ^ (m0 + 2) :=
    pow_le_pow_right₀ (le_of_lt hq) (Nat.le_add_right _ _)
  have hgrow := chebT_growth q (le_of_lt hq) (m0 + 2)
  have heq := hall (m0 + 2)
  rw [chebF_succ_succ] at heq
  obtain ⟨hlo, hhi⟩ := fsub_fin_bound _ _ _ heq
  have : FMAX < chebT q (m0 + 2) :=
    lt_of_lt_of_le hm0 (le_trans hmono hgrow.2.2.1)
  linarith

/-- C2: when the caller supplies energy bounds that underestimate the true
spectrum, the computation raises no exception — the pipeline's return type is
a plain value array and the recursion never inspects or traps non-finite
values (non-finiteness only propagates forward); divergence is guaranteed for
any rescaled entry `q > 1`, and in the concrete underestimated scenario the
returned array has one entry per requested energy with NaN appearing as
data. -/
theorem underestimated_bounds_divergence :
    (∀ q : ℚ, 1 < q → 2 * q ≤ FMAX →
      ∃ m, isFiniteF (chebF (FVal.fin q) m) = false) ∧
    (∀ (x : FVal) (m m' : ℕ), m ≤ m' → isFiniteF (chebF x m) = false →
      isFiniteF (chebF x m') = false) ∧
    c2Result.length = c2Energies.length ∧
    FVal.nan ∈ c2Result := by
  have h : c2Result = [FVal.nan, FVal.nan] := by
    unfold c2Result c2Energies c2M kpmLdos1x1
    norm_num [rescaled, scaleA, scaleB, mkF, FMAX, momentsF, momentsGo,
      chebListQ, chebQGo, reconstructF, fmul, fadd, fsub, fneg, isFiniteF,
      List.range_succ]
  refine ⟨chebF_diverges, chebF_nonfin_mono, ?_, ?_⟩
  · rw [h]
    rfl
  · rw [h]
    exact List.mem_cons_self _ _

/-- Closed-form check of C2: divergence for the rescaled entry `2`, and
propagation of the concrete non-finite moment of the scenario's rescaled
entry `2^600` from index 2 to index 3. -/
theorem underestimated_bounds_divergence_witness :
    ((1 : ℚ) < 2 ∧ 2 * 2 ≤ FMAX ∧
      ∃ m, isFiniteF (chebF (FVal.fin 2) m) = false) ∧
    (2 ≤ 3 ∧ isFiniteF (chebF (FVal.fin ((2 : ℚ) ^ 600)) 2) = false ∧
      isFiniteF (chebF (FVal.fin ((2 : ℚ) ^ 600)) 3) = false) := by
  have h1 : (1 : ℚ) < 2 := by norm_num
  have h2 : (2 : ℚ) * 2 ≤ FMAX := by norm_num [FMAX]
  have hc : isFiniteF (chebF (FVal.fin ((2 : ℚ) ^ 600)) 2) = false := by
    norm_num [chebF, chebFAux, fmul, fsub, fadd, fneg, mkF, FMAX, isFiniteF]
  exact ⟨⟨h1, h2, underestimated_bounds_divergence.1 2 h1 h2⟩,
    ⟨by norm_num, hc,
      underestimated_bounds_divergence.2.1 (FVal.fin ((2 : ℚ) ^ 600)) 2 3
        (by norm_num) hc⟩⟩

/-- Dropping filtered-out elements whose image is zero does not change a
mapped sum. -/
theorem map_filter_sum {α : Type} (p : α → Bool) (f : α → ℚ) :
    ∀ l : List α, (∀ x ∈ l, p x = false → f x = 0) →
      ((l.filter p).map f).sum = (l.map f).sum := by
  intro l
  induction l with
  | nil => intro _; rfl
  | cons a rest ih =>
    intro h
    have hrest := ih (fun x hx hpx => h x (List.mem_cons_of_mem _ hx) hpx)
    by_cases hp : p a = true
    · rw [List.filter_cons_of_pos hp]
      simp only [List.map_cons, List.sum_cons]
      rw [hrest]
    · have hpa : p a = false := eq_false_of_ne_true hp
      rw [List.filter_cons_of_neg (by simp [hpa])]
      have h0 : f a = 0 := h a (List.mem_cons_self _ _) hpa
      simp only [List.map_cons, List.sum_cons]
      rw [hrest, h0, zero_add]

/-- The CSR sparse apply of one row agrees with the dense matrix-vector
product. -/
theorem rowApply_csr (A : Matrix (Fin n) (Fin n) ℚ) (i : Fin n)
    (v : Fin n → ℚ) : rowApply (csrRow A i) v = A.mulVec v i := by
  unfold rowApply csrRow
  rw [List.map_map]
  rw [map_filter_sum (fun j => decide (A i j ≠ 0))
    ((fun p : Fin n × ℚ => p.2 * v p.1) ∘ fun j => (j, A i j))
    (List.finRange n)
    (fun j _ hj => by
      have hz : A i j = 0 := not_not.1 (of_decide_eq_false hj)
      show A i j * v j = 0
      rw [hz, zero_mul])]
  have hsum : ((List.finRange n).map
      ((fun p : Fin n × ℚ => p.2 * v p.1) ∘ fun j => (j, A i j))).sum =
      ∑ j : Fin n, A i j * v j := (Fin.sum_univ_def _).symm
  rw [hsum]
  simp [Matrix.mulVec, Matrix.dotProduct]

/-- The CSR layout computes exactly the dense matrix-vector product. -/
theorem sparseApply_csr (A : Matrix (Fin n) (Fin n) ℚ) :
    sparseApply (csrRow A) = A.mulVec :=
  funext fun v => funext fun i => rowApply_csr A i v

/-- ELLPACK zero padding does not change a row's sparse apply. -/
theorem rowApply_ell (A : Matrix (Fin n) (Fin n) ℚ) (W : ℕ) (i : Fin n)
    (v : Fin n → ℚ) : rowApply (ellRow A W i) v = rowApply (csrRow A i) v := by
  unfold ellRow rowApply
  rw [List.map_append, List.sum_append]
  have hrep : (List.replicate (W - (csrRow A i).length) (i, (0 : ℚ))).map
      (fun p : Fin n × ℚ => p.2 * v p.1) =
      List.replicate (W - (csrRow A i).length) 0 := by
    rw [List.map_replicate]
    simp
  rw [hrep, List.sum_replicate]
  simp

/-- The ELLPACK layout computes exactly the dense matrix-vector product. -/
theorem sparseApply_ell (A : Matrix (Fin n) (Fin n) ℚ) (W : ℕ) :
    sparseApply (ellRow A W) = A.mulVec :=
  funext fun v => funext fun i =>
    (rowApply_ell A W i v).trans (rowApply_csr A i v)

/-- Matrix reordering commutes with the matrix-vector product: applying the
reordered matrix to the reordered vector is the reordered image. -/
theorem perm_mulVec (A : Matrix (Fin n) (Fin n) ℚ) (σ : Equiv.Perm (Fin n))
    (v : Fin n → ℚ) :
    (A.submatrix σ σ).mulVec (v ∘ σ) = (A.mulVec v) ∘ σ := by
  rw [Matrix.submatrix_mulVec_equiv]
  have h : (v ∘ ⇑σ) ∘ ⇑σ.symm = v := by
    funext i
    simp
  rw [h]

/-- The dot product is invariant under simultaneously permuting both
vectors. -/
theorem perm_dot (σ : Equiv.Perm (Fin n)) (u w : Fin n → ℚ) :
    (u ∘ σ) ⬝ᵥ (w ∘ σ) = u ⬝ᵥ w := by
  simp only [Matrix.dotProduct, Function.comp_apply]
  exact Equiv.sum_comp σ (fun j => u j * w j)

/-- The Chebyshev vector recursion unfolds via the three-term recursion. -/
theorem chebVecWith_succ_succ (app : (Fin n → ℚ) → Fin n → ℚ)
    (v : Fin n → ℚ) (k : ℕ) :
    chebVecWith app v (k + 2) =
      (2 : ℚ) • app (chebVecWith app v (k + 1)) - chebVecWith app v k := rfl

/-- Reordering commutes with the whole Chebyshev vector recursion. -/
theorem chebVecWith_perm (A : Matrix (Fin n) (Fin n) ℚ)
    (σ : Equiv.Perm (Fin n)) (v : Fin n → ℚ) :
    ∀ k, chebVecWith ((A.submatrix σ σ).mulVec) (v ∘ σ) k =
      (chebVecWith A.mulVec v k) ∘ σ := by
  intro k
  induction k using Nat.twoStepInduction with
  | zero => rfl
  | one => exact perm_mulVec A σ v
  | more k ih1 ih2 =>
    rw [chebVecWith_succ_succ, chebVecWith_succ_succ, ih1, ih2, perm_mulVec]
    rfl

/-- For a symmetric matrix the matrix-vector product moves across the dot
product. -/
theorem swap_dot (A : Matrix (Fin n) (Fin n) ℚ)
    (hA : ∀ i j, A i j = A j i) (x y : Fin n → ℚ) :
    x ⬝ᵥ A.mulVec y = A.mulVec x ⬝ᵥ y := by
  have hAT : Aᵀ = A := Matrix.ext (fun i j => hA j i)
  rw [Matrix.dotProduct_mulVec, ← Matrix.mulVec_transpose, hAT]

/-- The matrix-vector product commutes with the Chebyshev recursion's linear
combination. -/
theorem mulVec_comb (A : Matrix (Fin n) (Fin n) ℚ) (x y : Fin n → ℚ) :
    A.mulVec ((2 : ℚ) • x - y) = (2 : ℚ) • A.mulVec x - A.mulVec y := by
  rw [Matrix.mulVec_sub, Matrix.mulVec_smul]

/-- Applying the matrix to the start vector commutes with the whole Chebyshev
recursion. -/
theorem chebVecWith_app_comm (A : Matrix (Fin n) (Fin n) ℚ) :
    ∀ (k : ℕ) (v : Fin n → ℚ),
      chebVecWith A.mulVec (A.mulVec v) k =
        A.mulVec (chebVecWith A.mulVec v k) := by
  intro k
  induction k using Nat.twoStepInduction with
  | zero => intro v; rfl
  | one => intro v; rfl
  | more k ih1 ih2 =>
    intro v
    rw [chebVecWith_succ_succ, chebVecWith_succ_succ, ih1, ih2, mulVec_comb]

/-- Chebyshev polynomials of a symmetric matrix are self-adjoint: the
recursion can be moved from one side of a dot product to the other. -/
theorem chebVecWith_selfadj (A : Matrix (Fin n) (Fin n) ℚ)
    (hA : ∀ i j, A i j = A j i) :
    ∀ (m : ℕ) (u z : Fin n → ℚ),
      chebVecWith A.mulVec u m ⬝ᵥ z = u ⬝ᵥ chebVecWith A.mulVec z m := by
  intro m
  induction m using Nat.twoStepInduction with
  | zero => intro u z; rfl
  | one => intro u z; exact (swap_dot A hA u z).symm.trans rfl
  | more m ih1 ih2 =>
    intro u z
    rw [chebVecWith_succ_succ, chebVecWith_succ_succ]
    rw [Matrix.sub_dotProduct, Matrix.smul_dotProduct,
      Matrix.dotProduct_sub, Matrix.dotProduct_smul]
    rw [← swap_dot A hA (chebVecWith A.mulVec u (m + 1))]
    rw [ih2 u (A.mulVec z), chebVecWith_app_comm]
    rw [ih1 u z]

/-- Twice the matrix image of a Chebyshev vector is the sum of its
neighbours: the recursion identity rearranged. -/
theorem cheb_two_smul (A : Matrix (Fin n) (Fin n) ℚ) (v : Fin n → ℚ)
    (k : ℕ) :
    (2 : ℚ) • A.mulVec (chebVecWith A.mulVec v (k + 1)) =
      chebVecWith A.mulVec v (k + 2) + chebVecWith A.mulVec v k := by
  rw [chebVecWith_succ_succ]
  abel

/-- The even/odd interleaving identity: the cross dot products of the two
Chebyshev vector sequences recover pairs of plain moments (symmetric
operator). -/
theorem interleave_key (A : Matrix (Fin n) (Fin n) ℚ)
    (hA : ∀ i j, A i j = A j i) (w v : Fin n → ℚ) :
    ∀ (k m : ℕ),
      2 * (chebVecWith A.mulVec w (m + k) ⬝ᵥ chebVecWith A.mulVec v k) =
        momentWith A.mulVec w v (m + 2 * k) +
          momentWith A.mulVec w v m := by
  intro k
  induction k using Nat.twoStepInduction with
  | zero =>
    intro m
    simp only [Nat.add_zero, Nat.mul_zero]
    rw [show chebVecWith A.mulVec v 0 = v from rfl]
    rw [chebVecWith_selfadj A hA m w v]
    unfold momentWith
    ring
  | one =>
    intro m
    rw [show m + 2 * 1 = m + 2 from by ring]
    rw [show chebVecWith A.mulVec v 1 = A.mulVec v from rfl]
    rw [swap_dot A hA]
    rw [← smul_eq_mul, ← Matrix.smul_dotProduct]
    rw [cheb_two_smul A w m]
    rw [Matrix.add_dotProduct]
    rw [chebVecWith_selfadj A hA (m + 2) w v, chebVecWith_selfadj A hA m w v]
    unfold momentWith
    ring
  | more k ih1 ih2 =>
    intro m
    rw [chebVecWith_succ_succ A.mulVec v k]
    rw [Matrix.dotProduct_sub, Matrix.dotProduct_smul]
    rw [swap_dot A hA]
    rw [← Matrix.smul_dotProduct]
    rw [show m + (k + 2) = m + k + 1 + 1 from by omega]
    rw [cheb_two_smul A w (m + k + 1)]
    rw [Matrix.add_dotProduct]
    have h1 := ih2 (m + 2)
    rw [show m + 2 + (k + 1) = m + k + 1 + 2 from by omega,
      show m + 2 + 2 * (k + 1) = m + 2 * (k + 2) from by omega] at h1
    have h2 := ih2 m
    rw [show m + (k + 1) = m + k + 1 from by omega] at h2
    have h3 := ih1 (m + 2)
    rw [show m + 2 + k = m + k + 1 + 1 from by omega,
      show m + 2 + 2 * k = m + 2 * (k + 1) from by omega] at h3
    linarith [h1, h2, h3]

/-- Interleaved moment computation produces exactly the naive moment
sequence (for a symmetric operator): the reformulation is algebraic, not an
approximation. -/
theorem momentsInterleaved_eq (A : Matrix (Fin n) (Fin n) ℚ)
    (hA : ∀ i j, A i j = A j i) (w v : Fin n → ℚ) :
    ∀ M, momentsInterleavedWith A.mulVec w v M =
      momentsWith A.mulVec w v (2 * M) := by
  intro M
  induction M with
  | zero => rfl
  | succ M ih =>
    rw [momentsInterleavedWith, ih]
    unfold momentsWith
    rw [show 2 * (M + 1) = 2 * M + 1 + 1 from by ring, List.range_succ,
      List.map_append, List.range_succ, List.map_append, List.append_assoc]
    have hk0 := interleave_key A hA w v M 0
    rw [Nat.zero_add, Nat.zero_add] at hk0
    have hk1 := interleave_key A hA w v M 1
    rw [show 1 + M = M + 1 from by omega,
      show 1 + 2 * M = 2 * M + 1 from by omega] at hk1
    have e0 : 2 * (chebVecWith A.mulVec w M ⬝ᵥ chebVecWith A.mulVec v M) -
        momentWith A.mulVec w v 0 = momentWith A.mulVec w v (2 * M) := by
      linarith
    have e1 : 2 * (chebVecWith A.mulVec w (M + 1) ⬝ᵥ
        chebVecWith A.mulVec v M) - momentWith A.mulVec w v 1 =
        momentWith A.mulVec w v (2 * M + 1) := by
      linarith
    rw [e0, e1]
    rfl

/-- Reordered moments equal plain moments: each Chebyshev dot product is
permutation invariant. -/
theorem momentsWith_perm (A : Matrix (Fin n) (Fin n) ℚ)
    (σ : Equiv.Perm (Fin n)) (w v : Fin n → ℚ) (M : ℕ) :
    momentsWith ((A.submatrix σ σ).mulVec) (w ∘ σ) (v ∘ σ) M =
      momentsWith A.mulVec w v M := by
  unfold momentsWith
  apply List.map_congr_left
  intro t _
  unfold momentWith
  rw [chebVecWith_perm A σ v t]
  exact perm_dot σ w (chebVecWith A.mulVec v t)

/-- Reordered interleaved dot products equal the plain ones as well. -/
theorem momentsInterleaved_perm (A : Matrix (Fin n) (Fin n) ℚ)
    (σ : Equiv.Perm (Fin n)) (w v : Fin n → ℚ) :
    ∀ M, momentsInterleavedWith ((A.submatrix σ σ).mulVec) (w ∘ σ) (v ∘ σ)
      M = momentsInterleavedWith A.mulVec w v M := by
  intro M
  induction M with
  | zero => rfl
  | succ M ih =>
    rw [momentsInterleavedWith, momentsInterleavedWith, ih]
    have hm : ∀ t, momentWith ((A.submatrix σ σ).mulVec) (w ∘ σ) (v ∘ σ) t =
        momentWith A.mulVec w v t := by
      intro t
      unfold momentWith
      rw [chebVecWith_perm A σ v t]
      exact perm_dot σ w _
    rw [chebVecWith_perm A σ w M, chebVecWith_perm A σ v M,
      chebVecWith_perm A σ w (M + 1), perm_dot σ, perm_dot σ, hm 0, hm 1]

/-- Every optimization level's moment computation equals the level-0
computation exactly (symmetric operator). -/
theorem kpmMoments_level (A : Matrix (Fin n) (Fin n) ℚ)
    (σ : Equiv.Perm (Fin n)) (W : ℕ) (w v : Fin n → ℚ)
    (hA : ∀ i j, A i j = A j i) :
    ∀ level M, kpmMoments A σ W w v level M = kpmMoments A σ W w v 0 M := by
  intro level M
  have hA' : ∀ i j, (A.submatrix σ σ) i j = (A.submatrix σ σ) j i :=
    fun i j => hA (σ i) (σ j)
  have hc : sparseApply (csrRow A) = A.mulVec := sparseApply_csr A
  have hc' : sparseApply (csrRow (A.submatrix σ σ)) =
      (A.submatrix σ σ).mulVec := sparseApply_csr _
  have he' : sparseApply (ellRow (A.submatrix σ σ) W) =
      (A.submatrix σ σ).mulVec := sparseApply_ell _ W
  rcases level with _ | _ | _ | lv
  · rfl
  · show momentsWith (sparseApply (csrRow (A.submatrix σ σ))) (w ∘ σ)
        (v ∘ σ) (2 * M) =
      momentsWith (sparseApply (csrRow A)) w v (2 * M)
    rw [hc, hc']
    exact momentsWith_perm A σ w v (2 * M)
  · show momentsInterleavedWith (sparseApply (csrRow (A.submatrix σ σ)))
        (w ∘ σ) (v ∘ σ) M =
      momentsWith (sparseApply (csrRow A)) w v (2 * M)
    rw [hc, hc', momentsInterleaved_eq _ hA' (w ∘ σ) (v ∘ σ) M]
    exact momentsWith_perm A σ w v (2 * M)
  · show momentsInterleavedWith (sparseApply (ellRow (A.submatrix σ σ) W))
        (w ∘ σ) (v ∘ σ) M =
      momentsWith (sparseApply (csrRow A)) w v (2 * M)
    rw [hc, he', momentsInterleaved_eq _ hA' (w ∘ σ) (v ∘ σ) M]
    exact momentsWith_perm A σ w v (2 * M)

/-- C1: for every symmetric operator and every Green's-function/LDOS request
(readout vector `w`, start vector `v`, requested energies and damping
coefficients), the moments and the reconstructed results computed at any
optimization level equal the level-0 results exactly — the level changes only
the storage layout and recursion scheduling, never the returned values. -/
theorem optimization_levels_agree (A : Matrix (Fin n) (Fin n) ℚ)
    (σ : Equiv.Perm (Fin n)) (W : ℕ) (w v : Fin n → ℚ) (level M : ℕ)
    (coef : ℕ → ℚ → ℚ) (energies : List ℚ)
    (hA : ∀ i j, A i j = A j i) :
    kpmMoments A σ W w v level M = kpmMoments A σ W w v 0 M ∧
    kpmResult A σ W w v level M coef energies =
      kpmResult A σ W w v 0 M coef energies := by
  have h := kpmMoments_level A σ W w v hA level M
  refine ⟨h, ?_⟩
  unfold kpmResult
  rw [h]

/-- Closed-form check of C1 on a concrete symmetric 2×2 operator, swap
reordering, ELLPACK width 2, level 3 versus level 0. -/
theorem optimization_levels_agree_witness :
    (∀ i j, (!![0, 1; 1, 0] : Matrix (Fin 2) (Fin 2) ℚ) i j =
      (!![0, 1; 1, 0] : Matrix (Fin 2) (Fin 2) ℚ) j i) ∧
    kpmMoments (!![0, 1; 1, 0] : Matrix (Fin 2) (Fin 2) ℚ) (Equiv.swap 0 1)
        2 (fun _ => 1) (fun i => if i = 0 then 1 else 0) 3 2 =
      kpmMoments (!![0, 1; 1, 0] : Matrix (Fin 2) (Fin 2) ℚ) (Equiv.swap 0 1)
        2 (fun _ => 1) (fun i => if i = 0 then 1 else 0) 0 2 ∧
    kpmResult (!![0, 1; 1, 0] : Matrix (Fin 2) (Fin 2) ℚ) (Equiv.swap 0 1)
        2 (fun _ => 1) (fun i => if i = 0 then 1 else 0) 3 2 (fun _ _ => 1)
        [0] =
      kpmResult (!![0, 1; 1, 0] : Matrix (Fin 2) (Fin 2) ℚ) (Equiv.swap 0 1)
        2 (fun _ => 1) (fun i => if i = 0 then 1 else 0) 0 2 (fun _ _ => 1)
        [0] := by
  have hA : ∀ i j, (!![0, 1; 1, 0] : Matrix (Fin 2) (Fin 2) ℚ) i j =
      (!![0, 1; 1, 0] : Matrix (Fin 2) (Fin 2) ℚ) j i := by
    intro i j
    fin_cases i <;> fin_cases j <;> rfl
  have h := optimization_levels_agree (!![0, 1; 1, 0]) (Equiv.swap 0 1) 2
    (fun _ => 1) (fun i => if i = 0 then 1 else 0) 3 2 (fun _ _ => 1) [0] hA
  exact ⟨hA, h.1, h.2⟩
